import Mathlib

/-!
Verification development for the `chatserver` repository (`src/server.go`).

The Go program is a line-based multi-room chat server.  We give a shallow
embedding of its data model and operations:

* Go `*Client` pointers are modelled by natural-number client identifiers.
  The mutable fields of a `Client` (`nick` and the open/closed status of its
  `conn`, `incoming` and `outgoing` channels) live in a `ClientState` record,
  and the heap of all clients is a function `Nat → ClientState` stored in the
  server state.
* The Go map `rooms map[string]*Room` is modelled as `String → Option Room`.
* A Go channel send `client.outgoing <- s` delivers `(client, s)` when the
  channel is open and **panics** when the channel has been closed (Go's
  "send on closed channel" runtime panic).  Operations that can panic return
  `Option`: `none` models the panic (the unrecovered panic kills the
  dispatcher goroutine and hence the process), `some` carries the list of
  delivered `(recipient, line)` pairs.
* The three Go regexes `nick (\w+)\n$`, `join (\w+)\n$`, `msg (\w+) (.+)\n$`
  are compiled with RE2 default flags: `\w` is ASCII `[0-9A-Za-z_]`, `.`
  matches any character except newline, `$` matches only at the end of the
  text, and `FindStringSubmatch` returns the leftmost match (the regex is
  *not* anchored at the start).  The functions `findCmdWord` and
  `findMsgParts` implement exactly this semantics: they scan the candidate
  start positions from the left and succeed at the first position where the
  whole end-anchored pattern matches.
-/

/-- Word characters of the RE2 class `\w`: ASCII letters, digits and underscore. -/
def isWordChar (c : Char) : Bool := c.isAlphanum || c == '_'

/-- Boolean test that the first list is a prefix of the second (used to test
whether a regex literal matches at a given start position). -/
def beginsWith : List Char → List Char → Bool
  | [], _ => true
  | _ :: _, [] => false
  | k :: ks, c :: cs => k == c && beginsWith ks cs

/-- Splits off the final newline required by the `\n$` part of all three
regexes: returns `some body` when the input is `body ++ ['\n']` (RE2 `$`
matches only at the very end of the text). -/
def splitFinalNewline : List Char → Option (List Char)
  | [] => none
  | [c] => if c = '\n' then some [] else none
  | c :: c2 :: rest =>
    match splitFinalNewline (c2 :: rest) with
    | none => none
    | some b => some (c :: b)

/-- Literal of the regex `nick (\w+)\n$` before the capture group. -/
def nickKw : List Char := ['n', 'i', 'c', 'k', ' ']

/-- Literal of the regex `join (\w+)\n$` before the capture group. -/
def joinKw : List Char := ['j', 'o', 'i', 'n', ' ']

/-- Literal of the regex `msg (\w+) (.+)\n$` before the first capture group. -/
def msgKw : List Char := ['m', 's', 'g', ' ']

/-- Matching of `<kw>(\w+)\n$` against `body ++ "\n"`: scan start positions
left to right (RE2 leftmost match); at a position where the literal `kw`
matches, the capture `\w+` must extend exactly to the final newline, i.e. the
remainder of `body` must be non-empty and all word characters.  Returns the
captured word. -/
def findCmdWord (kw : List Char) : List Char → Option (List Char)
  | [] => none
  | c :: cs =>
    if beginsWith kw (c :: cs) = true ∧ (c :: cs).drop kw.length ≠ [] ∧
        ((c :: cs).drop kw.length).all isWordChar = true
    then some ((c :: cs).drop kw.length)
    else findCmdWord kw cs

/-- Matching of `msg (\w+) (.+)\n$` against `body ++ "\n"`: at a candidate
start position the greedy `\w+` takes the maximal word-character run, a
literal space must follow, and `(.+)` (which cannot cross a newline) must
cover the whole non-empty remainder of `body`.  Returns the two captures. -/
def findMsgParts : List Char → Option (List Char × List Char)
  | [] => none
  | c :: cs =>
    if beginsWith msgKw (c :: cs) = true ∧
        ((c :: cs).drop msgKw.length).takeWhile isWordChar ≠ [] ∧
        (((c :: cs).drop msgKw.length).dropWhile isWordChar).head? = some ' ' ∧
        (((c :: cs).drop msgKw.length).dropWhile isWordChar).tail ≠ [] ∧
        '\n' ∉ (((c :: cs).drop msgKw.length).dropWhile isWordChar).tail
    then some (((c :: cs).drop msgKw.length).takeWhile isWordChar,
               (((c :: cs).drop msgKw.length).dropWhile isWordChar).tail)
    else findMsgParts cs

/-- Go `Command` values: the three concrete command structs, each carrying the
originating client (`NickCommand`, `JoinCommand`, `MsgCommand`). -/
inductive Command where
  | nick (client : Nat) (nick : String)
  | join (client : Nat) (room : String)
  | msg (client : Nat) (room : String) (message : String)
deriving DecidableEq

/-- Go `parseCommand`: try `nickRegexp`, then `joinRegexp`, then `msgRegexp`
on the raw line; `none` models the Go `nil` result. -/
def parseCommand (client : Nat) (s : String) : Option Command :=
  match splitFinalNewline s.data with
  | none => none
  | some body =>
    match findCmdWord nickKw body with
    | some w => some (Command.nick client (String.mk w))
    | none =>
      match findCmdWord joinKw body with
      | some w => some (Command.join client (String.mk w))
      | none =>
        match findMsgParts body with
        | some (w, r) => some (Command.msg client (String.mk w) (String.mk r))
        | none => none

/-- Modelled from the spec's words (for comparison with `parseCommand`): a
line is *exactly* one of the three shapes `nick <word>\n`, `join <word>\n`,
`msg <word> <rest-of-line>\n` — anchored at the start of the line, with
`word` one or more word characters and `rest-of-line` non-empty. -/
def specExactShape (s : String) : Bool :=
  match splitFinalNewline s.data with
  | some body =>
    (beginsWith nickKw body && decide (body.drop nickKw.length ≠ []) &&
      (body.drop nickKw.length).all isWordChar)
    || (beginsWith joinKw body && decide (body.drop joinKw.length ≠ []) &&
      (body.drop joinKw.length).all isWordChar)
    || (beginsWith msgKw body &&
      decide ((body.drop msgKw.length).takeWhile isWordChar ≠ []) &&
      decide (((body.drop msgKw.length).dropWhile isWordChar).head? = some ' ') &&
      decide (((body.drop msgKw.length).dropWhile isWordChar).tail ≠ []) &&
      decide ('\n' ∉ ((body.drop msgKw.length).dropWhile isWordChar).tail))
  | none => false

/-- End-anchored nick shape actually recognised by `nickRegexp` (no `^`
anchor, so an arbitrary prefix may precede the keyword). -/
def suffixNickShape (s : String) : Prop :=
  ∃ p w, s.data = p ++ nickKw ++ w ++ ['\n'] ∧ w ≠ [] ∧ w.all isWordChar = true

/-- End-anchored join shape actually recognised by `joinRegexp`. -/
def suffixJoinShape (s : String) : Prop :=
  ∃ p w, s.data = p ++ joinKw ++ w ++ ['\n'] ∧ w ≠ [] ∧ w.all isWordChar = true

/-- End-anchored msg shape actually recognised by `msgRegexp`. -/
def suffixMsgShape (s : String) : Prop :=
  ∃ p w r, s.data = p ++ msgKw ++ w ++ ' ' :: r ++ ['\n'] ∧ w ≠ [] ∧
    w.all isWordChar = true ∧ r ≠ [] ∧ '\n' ∉ r

/-- Per-client mutable state: the `nick` field of the Go `Client` struct plus
the open/closed status of its connection and its two channels. -/
structure ClientState where
  nick : String
  incomingClosed : Bool
  outgoingClosed : Bool
  connClosed : Bool
deriving DecidableEq

/-- Go `NewClient`: fresh client with empty nickname and open channels. -/
def NewClient : ClientState :=
  { nick := "", incomingClosed := false, outgoingClosed := false, connClosed := false }

/-- Go `Room` struct: a name and the member list (`clients []*Client`). -/
structure Room where
  name : String
  clients : List Nat
deriving DecidableEq

/-- Go `Room.AddClient`: appends the client to the member slice, with no
duplicate check. -/
def Room.AddClient (room : Room) (client : Nat) : Room :=
  { room with clients := room.clients ++ [client] }

/-- Go `NewRoom`: a room with the given name and a nil member slice. -/
def NewRoom (name : String) : Room :=
  { name := name, clients := [] }

/-- Go `ChatServer`: the client list, the room registry map, and (as the
modelled heap) the state of every client. -/
structure ChatServer where
  clients : List Nat
  rooms : String → Option Room
  clientStates : Nat → ClientState

/-- Go `NewChatServer`: empty client list, empty room map; every client
identifier initially maps to a fresh (unused) client state. -/
def NewChatServer : ChatServer :=
  { clients := [], rooms := fun _ => none, clientStates := fun _ => NewClient }

/-- Go `ChatServer.JoinRoom`: look the room up in the map, creating and
inserting an empty room first when absent, then append the client. -/
def ChatServer.JoinRoom (server : ChatServer) (name : String) (client : Nat) : ChatServer :=
  match server.rooms name with
  | some room =>
    { server with
      rooms := fun k => if k = name then some (room.AddClient client) else server.rooms k }
  | none =>
    { server with
      rooms := fun k => if k = name then some ((NewRoom name).AddClient client)
               else server.rooms k }

/-- Channel sends of the broadcast loop `for _, client := range room.clients
{ client.outgoing <- msgFmt }`: delivers the line to each member in order;
`none` models the Go panic raised by sending on a closed channel. -/
def broadcastLoop (server : ChatServer) (line : String) : List Nat → Option (List (Nat × String))
  | [] => some []
  | c :: rest =>
    if (server.clientStates c).outgoingClosed = true then none
    else
      match broadcastLoop server line rest with
      | none => none
      | some sends => some ((c, line) :: sends)

/-- Go `ChatServer.Broadcast`: missing room and unset nickname are reported
to the sender only; otherwise the formatted line
`name ++ " / " ++ nick ++ ": " ++ msg ++ "\n"` is sent to every entry of the
member list.  Every channel send panics (`none`) when the target channel is
closed. -/
def ChatServer.Broadcast (server : ChatServer) (name : String) (fromClient : Nat)
    (msg : String) : Option (List (Nat × String)) :=
  match server.rooms name with
  | none =>
    if (server.clientStates fromClient).outgoingClosed = true then none
    else some [(fromClient, "Error: Room doesn't exist\n")]
  | some room =>
    if (server.clientStates fromClient).nick = "" then
      if (server.clientStates fromClient).outgoingClosed = true then none
      else some [(fromClient, "Error: Must set NICK first\n")]
    else
      broadcastLoop server
        (name ++ " / " ++ (server.clientStates fromClient).nick ++ ": " ++ msg ++ "\n")
        room.clients

/-- Go `Command.Run` (the `Run` methods of `NickCommand`, `JoinCommand`,
`MsgCommand`), executed by the dispatcher goroutine.  Returns the new server
state and the lines delivered to clients; `none` models a dispatcher panic. -/
def Command.Run : Command → ChatServer → Option (ChatServer × List (Nat × String))
  | Command.nick c n, server =>
    some ({ server with
            clientStates := fun d => if d = c then { server.clientStates d with nick := n }
                            else server.clientStates d }, [])
  | Command.join c r, server => some (server.JoinRoom r c, [])
  | Command.msg c r m, server =>
    match server.Broadcast r c m with
    | none => none
    | some sends => some (server, sends)

/-- The dispatcher goroutine `for cmd := range server.incoming { cmd.Run(server) }`:
processes the queued commands strictly one at a time in queue order,
accumulating the delivered lines; `none` models a panic while running one of
the commands. -/
def dispatch : List Command → ChatServer → Option (ChatServer × List (Nat × String))
  | [], server => some (server, [])
  | cmd :: rest, server =>
    match cmd.Run server with
    | none => none
    | some (server1, out1) =>
      match dispatch rest server1 with
      | none => none
      | some (server2, out2) => some (server2, out1 ++ out2)

/-- The per-client ingest goroutine body: parse the line; a parse failure is
answered with `Error: Invalid cmd: <line>` directly on the client's outgoing
channel (bypassing the dispatcher), otherwise the command is enqueued. -/
def handleLine (client : Nat) (s : String) : Option Command × List (Nat × String) :=
  match parseCommand client s with
  | none => (none, [(client, "Error: Invalid cmd: " ++ s)])
  | some cmd => (some cmd, [])

/-- External events driving `ChatServer.HandleConnections` and the client
pumps: a successful accept, a failed accept, a line read from a client, and a
read error on a client's connection. -/
inductive ServerEvent where
  | acceptOk (client : Nat)
  | acceptErr
  | lineFrom (client : Nat) (line : String)
  | readErr (client : Nat)

/-- Result of one server step: the process keeps running with a new state,
newly enqueued commands and direct replies; or the whole process terminates
via `log.Fatal`; or the whole process terminates because an unrecovered
runtime panic (a send on a closed channel) killed a goroutine. -/
inductive StepResult where
  | ok (server : ChatServer) (queued : List Command) (sends : List (Nat × String))
  | fatal
  | panicked

/-- One step of the server against an external event, following
`ChatServer.HandleConnections` and `Client.Read`: `Accept` success registers
a fresh client; `Accept` failure hits `log.Fatal` and kills the process; a
read line goes through `parseCommand` — an invalid line is answered with
`client.outgoing <- ...`, a send that delivers when the channel is open but
panics (killing the process) when the client's channel was closed by a
concurrent disconnect, while a parsed command is pushed onto
`server.incoming`, which is never closed and so never panics; a read error
closes that one client's connection and both of its channels and nothing
else. -/
def serverStep (server : ChatServer) (ev : ServerEvent) : StepResult :=
  match ev with
  | ServerEvent.acceptOk c =>
    StepResult.ok
      { server with
        clients := server.clients ++ [c],
        clientStates := fun d => if d = c then NewClient else server.clientStates d } [] []
  | ServerEvent.acceptErr => StepResult.fatal
  | ServerEvent.lineFrom c s =>
    match parseCommand c s with
    | none =>
      if (server.clientStates c).outgoingClosed = true then StepResult.panicked
      else StepResult.ok server [] [(c, "Error: Invalid cmd: " ++ s)]
    | some cmd => StepResult.ok server [cmd] []
  | ServerEvent.readErr c =>
    StepResult.ok
      { server with
        clientStates := fun d => if d = c then
            { server.clientStates d with
              incomingClosed := true, outgoingClosed := true, connClosed := true }
          else server.clientStates d } [] []

/-- Number of membership entries a client holds in a named room (zero when
the room is absent from the registry). -/
def roomCount (server : ChatServer) (name : String) (c : Nat) : Nat :=
  match server.rooms name with
  | none => 0
  | some room => room.clients.count c

/-- Lines of a delivery list addressed to a given client. -/
def sentTo (d : Nat) (sends : List (Nat × String)) : List (Nat × String) :=
  sends.filter (fun p => decide (p.1 = d))

/-- Concrete server exhibiting the claim C1 failure: room `lobby` has member
list `[1, 2]`; client 1 has disconnected (its inbound pump closed the
connection and both channels), client 2 is live, and the sender 0 has
nickname `bob`. -/
def C1server : ChatServer :=
  { clients := [0, 1, 2],
    rooms := fun k => if k = "lobby" then some { name := "lobby", clients := [1, 2] } else none,
    clientStates := fun d =>
      if d = 0 then { NewClient with nick := "bob" }
      else if d = 1 then
        { nick := "", incomingClosed := true, outgoingClosed := true, connClosed := true }
      else NewClient }

/-- Concrete server used to witness claim C2: clients 0 and 1 are members of
room `R`, client 0 has nickname `bob`, all channels open. -/
def C2server : ChatServer :=
  { clients := [0, 1],
    rooms := fun k => if k = "R" then some { name := "R", clients := [0, 1] } else none,
    clientStates := fun d => if d = 0 then { NewClient with nick := "bob" } else NewClient }

/-- Concrete server used to witness claim C4: client 0 joined room `R` but
never set a nickname. -/
def C4server : ChatServer :=
  { clients := [0],
    rooms := fun k => if k = "R" then some { name := "R", clients := [0] } else none,
    clientStates := fun _ => NewClient }

/-- Concrete server exhibiting the claim C8 failure: client 0 has
disconnected — its inbound pump closed the connection and both channels —
while a raw line of its is still being classified by the ingest goroutine;
clients 1 and 2 are live with open channels. -/
def C8server : ChatServer :=
  { clients := [0, 1, 2],
    rooms := fun _ => none,
    clientStates := fun d =>
      if d = 0 then
        { nick := "", incomingClosed := true, outgoingClosed := true, connClosed := true }
      else NewClient }

/-- Server state after client 0 sets nickname `A`, used to witness claim C7. -/
def C7state : ChatServer :=
  { NewChatServer with
    clientStates := fun d => if d = 0 then { NewChatServer.clientStates d with nick := "A" }
                    else NewChatServer.clientStates d }

/-- Server state with client 0's nickname set to `A`, used to witness claim
C10. -/
def C10state : ChatServer :=
  { NewChatServer with
    clientStates := fun d => if d = 0 then { NewChatServer.clientStates d with nick := "A" }
                    else NewChatServer.clientStates d }

/-- A broadcast loop over members whose outgoing channels are all open
delivers exactly one copy of the line to each member entry, in order. -/
theorem broadcastLoop_all_open (server : ChatServer) (line : String) :
    ∀ xs : List Nat, (∀ d ∈ xs, (server.clientStates d).outgoingClosed = false) →
      broadcastLoop server line xs = some (xs.map (fun d => (d, line))) := by
  intro xs
  induction xs with
  | nil => intro _; rfl
  | cons x rest ih =>
    intro h
    have hx : (server.clientStates x).outgoingClosed = false := h x (List.mem_cons_self x rest)
    have hrest := ih (fun d hd => h d (List.mem_cons_of_mem x hd))
    simp [broadcastLoop, hx, hrest]

/-- Delivering one fixed line to each entry of a member list sends to a given
client exactly as many copies as the client has membership entries. -/
theorem sentTo_map_count (d : Nat) (line : String) :
    ∀ xs : List Nat, (sentTo d (xs.map (fun e => (e, line)))).length = xs.count d := by
  intro xs
  induction xs with
  | nil => rfl
  | cons x rest ih =>
    by_cases hx : x = d
    · simp [sentTo, List.filter_cons, hx, List.count_cons] at *
      omega
    · simp [sentTo, List.filter_cons, hx, List.count_cons] at *
      simpa [hx] using ih

/-- A client that holds no membership entry in the list receives nothing from
a broadcast over that list. -/
theorem sentTo_map_not_mem (d : Nat) (line : String) :
    ∀ xs : List Nat, d ∉ xs → sentTo d (xs.map (fun e => (e, line))) = [] := by
  intro xs
  induction xs with
  | nil => intro _; rfl
  | cons x rest ih =>
    intro h
    have hx : ¬ x = d := fun hc => h (hc ▸ List.mem_cons_self x rest)
    have hrest : d ∉ rest := fun hc => h (List.mem_cons_of_mem x hc)
    simp [sentTo, List.filter_cons, hx] at *
    simpa [sentTo] using ih hrest

/-- Claim C2: with the room present and the sender's nickname non-empty, the
dispatcher's broadcast delivers exactly one line
`<room> / <nick>: <text>\n` to each entry of the member list (the sender
counted once per membership entry) and nothing to any client outside the
member list; no hypothesis relates the sender to the member list, so the
result is independent of whether the sender is itself a member.  (The
members' outgoing channels are assumed open; a closed member channel is the
panic of claim C1.) -/
theorem broadcast_fanout (server : ChatServer) (name : String) (sender : Nat) (text : String)
    (room : Room)
    (hroom : server.rooms name = some room)
    (hnick : (server.clientStates sender).nick ≠ "")
    (hopen : ∀ d ∈ room.clients, (server.clientStates d).outgoingClosed = false) :
    server.Broadcast name sender text
      = some (room.clients.map (fun d =>
          (d, name ++ " / " ++ (server.clientStates sender).nick ++ ": " ++ text ++ "\n")))
    ∧ (∀ d, (sentTo d (room.clients.map (fun e =>
          (e, name ++ " / " ++ (server.clientStates sender).nick ++ ": " ++ text ++ "\n")))).length
        = room.clients.count d)
    ∧ (∀ d, d ∉ room.clients → sentTo d (room.clients.map (fun e =>
          (e, name ++ " / " ++ (server.clientStates sender).nick ++ ": " ++ text ++ "\n"))) = []) := by
  refine ⟨?_, fun d => sentTo_map_count d _ room.clients,
    fun d hd => sentTo_map_not_mem d _ room.clients hd⟩
  simp [ChatServer.Broadcast, hroom, hnick, broadcastLoop_all_open server _ room.clients hopen]

/-- Witness for claim C2 at a concrete input: both members of `R` receive
exactly the line `R / bob: hello\n`. -/
theorem broadcast_fanout_witness :
    C2server.Broadcast "R" 0 "hello"
      = some [(0, "R / bob: hello\n"), (1, "R / bob: hello\n")] :=
  (broadcast_fanout C2server "R" 0 "hello" { name := "R", clients := [0, 1] }
    rfl (by decide) (by decide)).1

/-- Claim C3: a message to a room absent from the registry makes the
dispatcher send exactly the single line `Error: Room doesn't exist\n` to the
sending actor, performs no broadcast, and returns the server state completely
unchanged (the same registry, memberships and nicknames). -/
theorem missing_room_guard (server : ChatServer) (name : String) (sender : Nat) (text : String)
    (hroom : server.rooms name = none)
    (hopen : (server.clientStates sender).outgoingClosed = false) :
    Command.Run (Command.msg sender name text) server
      = some (server, [(sender, "Error: Room doesn't exist\n")]) := by
  simp [Command.Run, ChatServer.Broadcast, hroom, hopen]

/-- Witness for claim C3 at a concrete input: on the fresh server a message
to the absent room `r` yields exactly the missing-room error to the sender. -/
theorem missing_room_guard_witness :
    Command.Run (Command.msg 0 "r" "hi") NewChatServer
      = some (NewChatServer, [(0, "Error: Room doesn't exist\n")]) :=
  missing_room_guard NewChatServer "r" 0 "hi" rfl rfl

/-- Claim C4: a message to an existing room from an actor whose nickname is
still empty makes the dispatcher send exactly `Error: Must set NICK first\n`
to the sender, nobody else receives anything, and the state is unchanged; the
second conjunct shows the room-existence check fires before the nickname
check — when both fail it is the missing-room error that is sent. -/
theorem missing_nick_guard (server : ChatServer) (name : String) (sender : Nat) (text : String)
    (room : Room)
    (hroom : server.rooms name = some room)
    (hnick : (server.clientStates sender).nick = "")
    (hopen : (server.clientStates sender).outgoingClosed = false) :
    Command.Run (Command.msg sender name text) server
      = some (server, [(sender, "Error: Must set NICK first\n")])
    ∧ ∀ server2 name2 sender2 text2, server2.rooms name2 = none →
        (server2.clientStates sender2).nick = "" →
        (server2.clientStates sender2).outgoingClosed = false →
        Command.Run (Command.msg sender2 name2 text2) server2
          = some (server2, [(sender2, "Error: Room doesn't exist\n")]) := by
  constructor
  · simp [Command.Run, ChatServer.Broadcast, hroom, hnick, hopen]
  · intro server2 name2 sender2 text2 h1 _ h3
    simp [Command.Run, ChatServer.Broadcast, h1, h3]

/-- Witness for claim C4 at a concrete input: the nickless member of `R`
gets exactly the must-set-nick error. -/
theorem missing_nick_guard_witness :
    Command.Run (Command.msg 0 "R" "hi") C4server
      = some (C4server, [(0, "Error: Must set NICK first\n")]) :=
  (missing_nick_guard C4server "R" 0 "hi" { name := "R", clients := [0] } rfl rfl rfl).1

/-- Claim C1 is violated by the code: broadcasting to a room that still holds
a disconnected member executes `client.outgoing <- msgFmt` on a closed
channel, which panics (`none`) instead of silently dropping the send — the
dispatcher goroutine crashes and the broadcast never completes to the
remaining live member 2, whose channel is open and who is a registered member
of the room. -/
theorem broadcast_panics_on_disconnected_member :
    Command.Run (Command.msg 0 "lobby" "hi") C1server = none
    ∧ (C1server.clientStates 2).outgoingClosed = false
    ∧ C1server.rooms "lobby" = some { name := "lobby", clients := [1, 2] } :=
  ⟨rfl, rfl, rfl⟩

/-- Joining a room increments the sender's membership-entry count in that
room by exactly one (creating the room when absent). -/
theorem roomCount_join (server : ChatServer) (name : String) (c : Nat) :
    roomCount (server.JoinRoom name c) name c = roomCount server name c + 1 := by
  cases h : server.rooms name with
  | none =>
    simp [roomCount, ChatServer.JoinRoom, h, Room.AddClient, NewRoom]
  | some room =>
    simp [roomCount, ChatServer.JoinRoom, h, Room.AddClient, List.count_append]

/-- Dispatching `k` copies of the same join command never panics and adds
exactly `k` membership entries for the client in the named room. -/
theorem join_replicate_count (name : String) (c : Nat) :
    ∀ (k : Nat) (server : ChatServer), ∃ server1,
      dispatch (List.replicate k (Command.join c name)) server = some (server1, [])
      ∧ roomCount server1 name c = roomCount server name c + k := by
  intro k
  induction k with
  | zero => intro server; exact ⟨server, rfl, rfl⟩
  | succ n ih =>
    intro server
    obtain ⟨server1, hd, hc⟩ := ih (server.JoinRoom name c)
    refine ⟨server1, ?_, ?_⟩
    · simp [List.replicate_succ, dispatch, Command.Run, hd]
    · rw [hc, roomCount_join]; omega

/-- Running one dispatcher command never removes or overwrites a registry
entry: an existing binding keeps its room, whose name is unchanged and whose
member list is only ever extended at the end. -/
theorem Run_rooms_mono (cmd : Command) (server server2 : ChatServer) (out : List (Nat × String))
    (h : Command.Run cmd server = some (server2, out)) (k0 : String) (r0 : Room)
    (hr : server.rooms k0 = some r0) :
    ∃ r1, server2.rooms k0 = some r1 ∧ r1.name = r0.name ∧ ∃ t, r1.clients = r0.clients ++ t := by
  cases cmd with
  | nick c n =>
    simp only [Command.Run, Option.some.injEq, Prod.mk.injEq] at h
    obtain ⟨h1, _⟩ := h
    exact ⟨r0, by rw [← h1]; exact hr, rfl, [], by simp⟩
  | join c r =>
    simp only [Command.Run, Option.some.injEq, Prod.mk.injEq] at h
    obtain ⟨h1, _⟩ := h
    subst h1
    cases hm : server.rooms r with
    | none =>
      by_cases hk : k0 = r
      · rw [hk] at hr; rw [hr] at hm; cases hm
      · exact ⟨r0, by simp [ChatServer.JoinRoom, hm, hk, hr], rfl, [], by simp⟩
    | some room =>
      by_cases hk : k0 = r
      · subst hk
        rw [hr] at hm
        obtain rfl : room = r0 := by cases hm; rfl
        exact ⟨Room.AddClient room c, by simp [ChatServer.JoinRoom, hr], rfl, [c], rfl⟩
      · exact ⟨r0, by simp [ChatServer.JoinRoom, hm, hk, hr], rfl, [], by simp⟩
  | msg c r m =>
    cases hb : server.Broadcast r c m with
    | none => simp [Command.Run, hb] at h
    | some sends =>
      simp only [Command.Run, hb, Option.some.injEq, Prod.mk.injEq] at h
      obtain ⟨h1, _⟩ := h
      exact ⟨r0, by rw [← h1]; exact hr, rfl, [], by simp⟩

/-- Claim C6: `JoinRoom` appends the actor to the member list, creating and
inserting an empty room first when the name is absent; there is no duplicate
check, so `k` joins by the same client add `k` membership entries and a
subsequent broadcast delivers `k` copies of the line to that client; and no
dispatcher command ever removes a room from the registry. -/
theorem join_duplicates (server : ChatServer) (name : String) (c : Nat) :
    (server.rooms name = none →
      (server.JoinRoom name c).rooms name = some { name := name, clients := [c] })
    ∧ (∀ room, server.rooms name = some room →
      (server.JoinRoom name c).rooms name = some { room with clients := room.clients ++ [c] })
    ∧ (∀ k : Nat, ∃ server1,
        dispatch (List.replicate k (Command.join c name)) server = some (server1, [])
        ∧ roomCount server1 name c = roomCount server name c + k
        ∧ ∀ sender t room, server1.rooms name = some room →
            (server1.clientStates sender).nick ≠ "" →
            (∀ d ∈ room.clients, (server1.clientStates d).outgoingClosed = false) →
            ∃ sends, server1.Broadcast name sender t = some sends
              ∧ (sentTo c sends).length = roomCount server name c + k)
    ∧ (∀ cmd server2 out k0 r0, Command.Run cmd server = some (server2, out) →
        server.rooms k0 = some r0 → (server2.rooms k0).isSome = true) := by
  refine ⟨?_, ?_, ?_, ?_⟩
  · intro h
    simp [ChatServer.JoinRoom, h, Room.AddClient, NewRoom]
  · intro room h
    simp [ChatServer.JoinRoom, h, Room.AddClient]
  · intro k
    obtain ⟨server1, hd, hc⟩ := join_replicate_count name c k server
    refine ⟨server1, hd, hc, ?_⟩
    intro sender t room hroom hnick hopen
    refine ⟨room.clients.map (fun e =>
      (e, name ++ " / " ++ (server1.clientStates sender).nick ++ ": " ++ t ++ "\n")), ?_, ?_⟩
    · exact (broadcast_fanout server1 name sender t room hroom hnick hopen).1
    · rw [sentTo_map_count]
      rw [← hc]
      simp [roomCount, hroom]
  · intro cmd server2 out k0 r0 h hr
    obtain ⟨r1, hr1, _⟩ := Run_rooms_mono cmd server server2 out h k0 r0 hr
    simp [hr1]

/-- Witness for claim C6 at a concrete input: joining the absent room `r`
creates it with the single member entry `[0]`. -/
theorem join_duplicates_witness :
    (NewChatServer.JoinRoom "r" 0).rooms "r" = some { name := "r", clients := [0] } :=
  (join_duplicates NewChatServer "r" 0).1 rfl

/-- Running one dispatcher command preserves the invariant that every
registry key maps to a room carrying that key as its name. -/
theorem Run_roomNamesOk (cmd : Command) (server server2 : ChatServer) (out : List (Nat × String))
    (h : Command.Run cmd server = some (server2, out))
    (hinv : ∀ k room, server.rooms k = some room → room.name = k) :
    ∀ k room, server2.rooms k = some room → room.name = k := by
  cases cmd with
  | nick c n =>
    simp only [Command.Run, Option.some.injEq, Prod.mk.injEq] at h
    obtain ⟨h1, _⟩ := h
    rw [← h1]
    exact hinv
  | join c r =>
    simp only [Command.Run, Option.some.injEq, Prod.mk.injEq] at h
    obtain ⟨h1, _⟩ := h
    subst h1
    intro k room hk
    cases hm : server.rooms r with
    | none =>
      simp only [ChatServer.JoinRoom, hm] at hk
      by_cases hkr : k = r
      · simp only [hkr, if_pos rfl] at hk
        cases hk
        simp [Room.AddClient, NewRoom, hkr]
      · simp only [if_neg hkr] at hk
        exact hinv k room hk
    | some room0 =>
      simp only [ChatServer.JoinRoom, hm] at hk
      by_cases hkr : k = r
      · simp only [hkr, if_pos rfl] at hk
        cases hk
        simp [Room.AddClient, hinv r room0 hm, hkr]
      · simp only [if_neg hkr] at hk
        exact hinv k room hk
  | msg c r m =>
    cases hb : server.Broadcast r c m with
    | none => simp [Command.Run, hb] at h
    | some sends =>
      simp only [Command.Run, hb, Option.some.injEq, Prod.mk.injEq] at h
      obtain ⟨h1, _⟩ := h
      rw [← h1]
      exact hinv

/-- Dispatching any queue of commands preserves the key-equals-name registry
invariant. -/
theorem dispatch_roomNamesOk (q : List Command) :
    ∀ server server1 out, dispatch q server = some (server1, out) →
      (∀ k room, server.rooms k = some room → room.name = k) →
      ∀ k room, server1.rooms k = some room → room.name = k := by
  induction q with
  | nil =>
    intro server server1 out h hinv
    simp only [dispatch, Option.some.injEq, Prod.mk.injEq] at h
    obtain ⟨h1, _⟩ := h
    rw [← h1]
    exact hinv
  | cons cmd rest ih =>
    intro server server1 out h hinv
    cases hrun : Command.Run cmd server with
    | none => simp [dispatch, hrun] at h
    | some p =>
      obtain ⟨sa, oa⟩ := p
      cases hd : dispatch rest sa with
      | none => simp [dispatch, hrun, hd] at h
      | some q2 =>
        obtain ⟨sb, ob⟩ := q2
        simp only [dispatch, hrun, hd, Option.some.injEq, Prod.mk.injEq] at h
        obtain ⟨h1, _⟩ := h
        rw [← h1]
        exact ih sa sb ob hd (Run_roomNamesOk cmd server sa oa hrun hinv)

/-- Claim C9: the fresh server satisfies the key-equals-name registry
invariant; every dispatcher command preserves it and never removes or
overwrites an existing binding (the bound room keeps its name and its member
list is only appended to); hence in every state reachable by dispatching a
command queue from the fresh server, every registry key maps to a room whose
name equals that key. -/
theorem registry_invariant :
    (∀ k room, NewChatServer.rooms k = some room → room.name = k)
    ∧ (∀ cmd server server2 out, Command.Run cmd server = some (server2, out) →
        ((∀ k room, server.rooms k = some room → room.name = k) →
          (∀ k room, server2.rooms k = some room → room.name = k))
        ∧ (∀ k room, server.rooms k = some room →
            ∃ room1, server2.rooms k = some room1 ∧ room1.name = room.name
              ∧ ∃ t, room1.clients = room.clients ++ t))
    ∧ (∀ q server1 out, dispatch q NewChatServer = some (server1, out) →
        ∀ k room, server1.rooms k = some room → room.name = k) := by
  refine ⟨?_, ?_, ?_⟩
  · intro k room h
    simp [NewChatServer] at h
  · intro cmd server server2 out h
    exact ⟨Run_roomNamesOk cmd server server2 out h,
      fun k room hk => Run_rooms_mono cmd server server2 out h k room hk⟩
  · intro q server1 out h
    exact dispatch_roomNamesOk q NewChatServer server1 out h
      (fun k room hk => by simp [NewChatServer] at hk)

/-- Server state after a single join of room `r` by client 0, used to witness
claim C9. -/
def C9state : ChatServer := NewChatServer.JoinRoom "r" 0

/-- Witness for claim C9 at a concrete input: after dispatching one join on
the fresh server, the key `r` is bound to a room named `r`. -/
theorem registry_invariant_witness :
    C9state.rooms "r" = some { name := "r", clients := [0] }
    ∧ Room.name { name := "r", clients := [0] } = "r" :=
  ⟨rfl, registry_invariant.2.2 [Command.join 0 "r"] C9state [] rfl "r"
    { name := "r", clients := [0] } rfl⟩

/-- Decomposition of one dispatcher step: a successful dispatch of a
non-empty queue runs the head command first and the rest of the queue on the
resulting state. -/
theorem dispatch_cons_some (cmd : Command) (q : List Command)
    (server server1 : ChatServer) (out : List (Nat × String))
    (h : dispatch (cmd :: q) server = some (server1, out)) :
    ∃ sa oa ob, Command.Run cmd server = some (sa, oa)
      ∧ dispatch q sa = some (server1, ob) ∧ out = oa ++ ob := by
  cases hrun : Command.Run cmd server with
  | none => simp [dispatch, hrun] at h
  | some p =>
    obtain ⟨sa, oa⟩ := p
    cases hd : dispatch q sa with
    | none => simp [dispatch, hrun, hd] at h
    | some q2 =>
      obtain ⟨sb, ob⟩ := q2
      simp only [dispatch, hrun, hd, Option.some.injEq, Prod.mk.injEq] at h
      obtain ⟨h1, h2⟩ := h
      exact ⟨sa, oa, ob, rfl, h1 ▸ hd, h2.symm⟩

/-- Sequential decomposition of the dispatcher: the commands enqueued first
are applied first, and the later part of the queue runs on the state their
effects produced. -/
theorem dispatch_append_some (q1 q2 : List Command) :
    ∀ server server1 out, dispatch (q1 ++ q2) server = some (server1, out) →
      ∃ sa oa ob, dispatch q1 server = some (sa, oa)
        ∧ dispatch q2 sa = some (server1, ob) ∧ out = oa ++ ob := by
  induction q1 with
  | nil =>
    intro server server1 out h
    exact ⟨server, [], out, rfl, h, (List.nil_append out).symm⟩
  | cons cmd rest ih =>
    intro server server1 out h
    rw [List.cons_append] at h
    obtain ⟨sa0, oa0, ob0, hrun, hd, hout⟩ := dispatch_cons_some cmd (rest ++ q2) server server1 out h
    obtain ⟨sa1, oa1, ob1, hd1, hd2, hout1⟩ := ih sa0 server1 ob0 hd
    refine ⟨sa1, oa0 ++ oa1, ob1, ?_, hd2, ?_⟩
    · simp [dispatch, hrun, hd1]
    · rw [hout, hout1, List.append_assoc]

/-- Dispatcher commands other than a nick command for client `c` leave the
state of client `c` untouched. -/
theorem Run_clientStates_other (cmd : Command) (server server2 : ChatServer)
    (out : List (Nat × String)) (c : Nat)
    (h : Command.Run cmd server = some (server2, out))
    (hn : ∀ b, cmd ≠ Command.nick c b) :
    server2.clientStates c = server.clientStates c := by
  cases cmd with
  | nick d b =>
    simp only [Command.Run, Option.some.injEq, Prod.mk.injEq] at h
    obtain ⟨h1, _⟩ := h
    rw [← h1]
    have hdc : ¬ c = d := fun hcd => hn b (by rw [hcd])
    simp [hdc]
  | join d r =>
    simp only [Command.Run, Option.some.injEq, Prod.mk.injEq] at h
    obtain ⟨h1, _⟩ := h
    rw [← h1]
    cases hm : server.rooms r <;> simp [ChatServer.JoinRoom, hm]
  | msg d r m =>
    cases hb : server.Broadcast r d m with
    | none => simp [Command.Run, hb] at h
    | some sends =>
      simp only [Command.Run, hb, Option.some.injEq, Prod.mk.injEq] at h
      obtain ⟨h1, _⟩ := h
      rw [← h1]

/-- A queue containing no nick command for client `c` leaves the state of
client `c` exactly as it was. -/
theorem dispatch_clientStates_no_nick (c : Nat) (q : List Command)
    (hq : ∀ b, Command.nick c b ∉ q) :
    ∀ server server1 out, dispatch q server = some (server1, out) →
      server1.clientStates c = server.clientStates c := by
  induction q with
  | nil =>
    intro server server1 out h
    simp only [dispatch, Option.some.injEq, Prod.mk.injEq] at h
    obtain ⟨h1, _⟩ := h
    rw [← h1]
  | cons cmd rest ih =>
    intro server server1 out h
    obtain ⟨sa, oa, ob, hrun, hd, _⟩ := dispatch_cons_some cmd rest server server1 out h
    have h2 := Run_clientStates_other cmd server sa oa c hrun
      (fun b hb => hq b (by rw [← hb]; exact List.mem_cons_self cmd rest))
    have h3 := ih (fun b hb => hq b (List.mem_cons_of_mem cmd hb)) sa server1 ob hd
    rw [h3, h2]

/-- Claim C7: the dispatcher applies commands strictly in queue order, so for
a client whose nick command precedes its message command in the queue (with
no later nick command of that client in between), the nickname set by the
earlier command is the one in force when the later command runs: after the
queue `q1 ++ [nick c a] ++ q2` the client's nickname is exactly `a`, and a
subsequent broadcast from that client is formatted with `a` (never the
empty-nickname error). -/
theorem per_client_order (q1 q2 : List Command) (c : Nat) (a : String)
    (server server1 : ChatServer) (out : List (Nat × String))
    (hq2 : ∀ b, Command.nick c b ∉ q2)
    (h : dispatch (q1 ++ Command.nick c a :: q2) server = some (server1, out)) :
    (server1.clientStates c).nick = a
    ∧ ∀ r t room, server1.rooms r = some room → a ≠ "" →
        server1.Broadcast r c t
          = broadcastLoop server1 (r ++ " / " ++ a ++ ": " ++ t ++ "\n") room.clients := by
  obtain ⟨sa, oa, ob, _, h2, _⟩ :=
    dispatch_append_some q1 (Command.nick c a :: q2) server server1 out h
  obtain ⟨sa2, oa2, ob2, hrun, hd, _⟩ :=
    dispatch_cons_some (Command.nick c a) q2 sa server1 ob h2
  have hsa2 : sa2.clientStates c = { sa.clientStates c with nick := a } := by
    simp only [Command.Run, Option.some.injEq, Prod.mk.injEq] at hrun
    obtain ⟨h1, _⟩ := hrun
    rw [← h1]
    simp
  have key : (server1.clientStates c).nick = a := by
    rw [dispatch_clientStates_no_nick c q2 hq2 sa2 server1 ob2 hd, hsa2]
  refine ⟨key, ?_⟩
  intro r t room hroom hna
  simp [ChatServer.Broadcast, hroom, key, hna]

/-- Witness for claim C7 at a concrete input: after dispatching `nick A` from
client 0 on the fresh server, client 0's nickname is `A`. -/
theorem per_client_order_witness : (C7state.clientStates 0).nick = "A" :=
  (per_client_order [] [] 0 "A" NewChatServer C7state []
    (fun b hb => List.not_mem_nil (Command.nick 0 b) hb) rfl).1

/-- Claim C8 is violated by the code: a listener accept failure does
terminate the process (`log.Fatal`), and a bare read error tears down only
its own client, but accept failure is not the only fatal error category —
classifying an invalid line from a client whose connection terminated
concurrently makes the ingest goroutine reply with `client.outgoing <- ...`
on a closed channel, an unrecovered panic that also kills the whole process,
while the same invalid line from a live client is answered normally (and a
read error still only closes that one client's state, leaving the client
list, the registry and every other client untouched). -/
theorem invalid_reply_panics_on_disconnected_client :
    serverStep C8server (ServerEvent.lineFrom 0 "oops\n") = StepResult.panicked
    ∧ ServerEvent.lineFrom 0 "oops\n" ≠ ServerEvent.acceptErr
    ∧ serverStep C8server ServerEvent.acceptErr = StepResult.fatal
    ∧ serverStep C8server (ServerEvent.lineFrom 2 "oops\n")
        = StepResult.ok C8server [] [(2, "Error: Invalid cmd: oops\n")]
    ∧ serverStep C8server (ServerEvent.readErr 1)
        = StepResult.ok
          { C8server with
            clientStates := fun d => if d = 1 then
                { C8server.clientStates d with
                  incomingClosed := true, outgoingClosed := true, connClosed := true }
              else C8server.clientStates d } [] [] :=
  ⟨rfl, fun h => ServerEvent.noConfusion h, rfl, rfl, rfl⟩

/-- The capture of `(\w+)` returned by the end-anchored keyword matcher is a
non-empty run of word characters. -/
theorem findCmdWord_word (kw : List Char) :
    ∀ cs w, findCmdWord kw cs = some w → w ≠ [] ∧ w.all isWordChar = true := by
  intro cs
  induction cs with
  | nil => intro w h; cases h
  | cons c rest ih =>
    intro w h
    by_cases hcond : beginsWith kw (c :: rest) = true ∧ (c :: rest).drop kw.length ≠ [] ∧
        ((c :: rest).drop kw.length).all isWordChar = true
    · simp only [findCmdWord, if_pos hcond] at h
      cases h
      exact ⟨hcond.2.1, hcond.2.2⟩
    · simp only [findCmdWord, if_neg hcond] at h
      exact ih w h

/-- Every nick command produced by the parser carries a nickname made of one
or more word characters — never the empty string. -/
theorem parseCommand_nick_word (c : Nat) (s : String) (c2 : Nat) (n : String)
    (h : parseCommand c s = some (Command.nick c2 n)) :
    n ≠ "" ∧ n.data.all isWordChar = true := by
  cases hsp : splitFinalNewline s.data with
  | none => simp [parseCommand, hsp] at h
  | some body =>
    cases hn : findCmdWord nickKw body with
    | some w =>
      simp only [parseCommand, hsp, hn, Option.some.injEq, Command.nick.injEq] at h
      obtain ⟨hw1, hw2⟩ := findCmdWord_word nickKw body w hn
      rw [← h.2]
      refine ⟨fun hc => hw1 ?_, hw2⟩
      exact congrArg String.data hc
    | none =>
      cases hj : findCmdWord joinKw body with
      | some w => simp [parseCommand, hsp, hn, hj] at h
      | none =>
        cases hm : findMsgParts body with
        | some p => obtain ⟨w, r⟩ := p; simp [parseCommand, hsp, hn, hj, hm] at h
        | none => simp [parseCommand, hsp, hn, hj, hm] at h

/-- Running one queue command keeps a non-empty nickname non-empty, provided
every nick command in play carries a non-empty nickname. -/
theorem Run_nick_nonempty (cmd : Command) (server server2 : ChatServer)
    (out : List (Nat × String)) (c : Nat)
    (h : Command.Run cmd server = some (server2, out))
    (hne : (server.clientStates c).nick ≠ "")
    (hcmd : ∀ c2 n, cmd = Command.nick c2 n → n ≠ "") :
    (server2.clientStates c).nick ≠ "" := by
  cases cmd with
  | nick d b =>
    simp only [Command.Run, Option.some.injEq, Prod.mk.injEq] at h
    obtain ⟨h1, _⟩ := h
    rw [← h1]
    by_cases hdc : c = d
    · simpa [hdc] using hcmd d b rfl
    · simpa [hdc] using hne
  | join d r =>
    rw [Run_clientStates_other (Command.join d r) server server2 out c h (fun b hb => by cases hb)]
    exact hne
  | msg d r m =>
    rw [Run_clientStates_other (Command.msg d r m) server server2 out c h (fun b hb => by cases hb)]
    exact hne

/-- Dispatching any queue whose nick commands all carry non-empty nicknames
keeps a non-empty nickname non-empty. -/
theorem dispatch_nick_nonempty (c : Nat) (q : List Command)
    (hq : ∀ c2 n, Command.nick c2 n ∈ q → n ≠ "") :
    ∀ server server1 out, dispatch q server = some (server1, out) →
      (server.clientStates c).nick ≠ "" → (server1.clientStates c).nick ≠ "" := by
  induction q with
  | nil =>
    intro server server1 out h hne
    simp only [dispatch, Option.some.injEq, Prod.mk.injEq] at h
    obtain ⟨h1, _⟩ := h
    rw [← h1]
    exact hne
  | cons cmd rest ih =>
    intro server server1 out h hne
    obtain ⟨sa, oa, ob, hrun, hd, _⟩ := dispatch_cons_some cmd rest server server1 out h
    have h2 := Run_nick_nonempty cmd server sa oa c hrun hne
      (fun c2 n hc => hq c2 n (by rw [← hc]; exact List.mem_cons_self cmd rest))
    exact ih (fun c2 n hn => hq c2 n (List.mem_cons_of_mem cmd hn)) sa server1 ob hd h2

/-- Claim C10: the parser only ever emits nick commands whose nickname is a
non-empty word; running a nick command installs exactly that nickname; and
once a client's nickname is non-empty it stays non-empty under any further
queue of parser-produced commands, so a later message from that client with
an existing room always takes the broadcast branch, never the
`Must set NICK first` branch. -/
theorem nick_nonempty_persists :
    (∀ c s c2 n, parseCommand c s = some (Command.nick c2 n) →
      n ≠ "" ∧ n.data.all isWordChar = true)
    ∧ (∀ c n server, ∃ server1,
        Command.Run (Command.nick c n) server = some (server1, [])
        ∧ (server1.clientStates c).nick = n)
    ∧ (∀ q server server1 out c,
        (server.clientStates c).nick ≠ "" →
        (∀ c2 n, Command.nick c2 n ∈ q → n ≠ "") →
        dispatch q server = some (server1, out) →
        (server1.clientStates c).nick ≠ ""
        ∧ ∀ r t room, server1.rooms r = some room →
            server1.Broadcast r c t = broadcastLoop server1
              (r ++ " / " ++ (server1.clientStates c).nick ++ ": " ++ t ++ "\n")
              room.clients) := by
  refine ⟨parseCommand_nick_word, ?_, ?_⟩
  · intro c n server
    refine ⟨{ server with clientStates := fun d => if d = c then
        { server.clientStates d with nick := n } else server.clientStates d }, rfl, by simp⟩
  · intro q server server1 out c hne hq h
    have h1 := dispatch_nick_nonempty c q hq server server1 out h hne
    refine ⟨h1, ?_⟩
    intro r t room hroom
    simp [ChatServer.Broadcast, hroom, h1]

/-- Witness for claim C10 at a concrete input: client 0's nickname, once set
to `A`, is non-empty after dispatching a further (empty) queue. -/
theorem nick_nonempty_persists_witness : (C10state.clientStates 0).nick ≠ "" :=
  (nick_nonempty_persists.2.2 [] C10state C10state [] 0 (by decide)
    (fun c2 n hn => absurd hn (List.not_mem_nil (Command.nick c2 n))) rfl).1

/-- A successful literal-prefix test decomposes the scanned text. -/
theorem beginsWith_eq : ∀ ks cs : List Char, beginsWith ks cs = true →
    cs = ks ++ cs.drop ks.length := by
  intro ks
  induction ks with
  | nil => intro cs _; simp
  | cons k ks ih =>
    intro cs h
    cases cs with
    | nil => simp [beginsWith] at h
    | cons c cs2 =>
      simp only [beginsWith, Bool.and_eq_true, beq_iff_eq] at h
      obtain ⟨h1, h2⟩ := h
      have h3 := ih cs2 h2
      simp only [List.length_cons, List.drop_succ_cons, List.cons_append]
      rw [h1, ← h3]

/-- The literal-prefix test accepts its own literal. -/
theorem beginsWith_self_append : ∀ ks t : List Char, beginsWith ks (ks ++ t) = true := by
  intro ks t
  induction ks with
  | nil => rfl
  | cons k ks ih => simp [beginsWith, ih]

/-- Soundness of the final-newline splitter. -/
theorem splitFinalNewline_sound : ∀ cs b, splitFinalNewline cs = some b → cs = b ++ ['\n'] := by
  intro cs
  induction cs with
  | nil => intro b h; cases h
  | cons c rest ih =>
    intro b h
    cases rest with
    | nil =>
      by_cases hc : c = '\n'
      · simp only [splitFinalNewline, if_pos hc] at h
        cases h
        simp [hc]
      · simp only [splitFinalNewline, if_neg hc] at h
        cases h
    | cons c2 rest2 =>
      cases hs : splitFinalNewline (c2 :: rest2) with
      | none => simp [splitFinalNewline, hs] at h
      | some b2 =>
        simp only [splitFinalNewline, hs, Option.some.injEq] at h
        rw [← h, List.cons_append, ← ih b2 hs]

/-- Completeness of the final-newline splitter. -/
theorem splitFinalNewline_append : ∀ b : List Char, splitFinalNewline (b ++ ['\n']) = some b := by
  intro b
  induction b with
  | nil => rfl
  | cons c rest ih =>
    cases hr : rest ++ ['\n'] with
    | nil => simp at hr
    | cons d ds =>
      have ih2 : splitFinalNewline (d :: ds) = some rest := by rw [← hr]; exact ih
      show splitFinalNewline ((c :: rest) ++ ['\n']) = some (c :: rest)
      rw [List.cons_append, hr]
      simp [splitFinalNewline, ih2]

/-- Soundness of the end-anchored keyword matcher: a successful match
decomposes the body as prefix, keyword and captured word. -/
theorem findCmdWord_sound (kw : List Char) :
    ∀ cs w, findCmdWord kw cs = some w → ∃ p, cs = p ++ kw ++ w := by
  intro cs
  induction cs with
  | nil => intro w h; cases h
  | cons c rest ih =>
    intro w h
    by_cases hcond : beginsWith kw (c :: rest) = true ∧ (c :: rest).drop kw.length ≠ [] ∧
        ((c :: rest).drop kw.length).all isWordChar = true
    · simp only [findCmdWord, if_pos hcond] at h
      cases h
      refine ⟨[], ?_⟩
      simp only [List.nil_append]
      exact beginsWith_eq kw (c :: rest) hcond.1
    · simp only [findCmdWord, if_neg hcond] at h
      obtain ⟨p, hp⟩ := ih w h
      exact ⟨c :: p, by simp [hp]⟩

/-- A keyword match that exists in the tail also exists with one more leading
character (the scan just moves on when position 0 fails). -/
theorem findCmdWord_step (kw : List Char) (c : Char) (cs : List Char)
    (h : (findCmdWord kw cs).isSome = true) :
    (findCmdWord kw (c :: cs)).isSome = true := by
  by_cases hcond : beginsWith kw (c :: cs) = true ∧ (c :: cs).drop kw.length ≠ [] ∧
      ((c :: cs).drop kw.length).all isWordChar = true
  · simp only [findCmdWord]
    rw [if_pos hcond]
    rfl
  · simp only [findCmdWord]
    rw [if_neg hcond]
    exact h

/-- The keyword matcher succeeds on a body that is exactly the keyword
followed by a non-empty word. -/
theorem findCmdWord_exact (kw : List Char) (hkw : kw ≠ []) (w : List Char)
    (hw : w ≠ []) (hall : w.all isWordChar = true) :
    (findCmdWord kw (kw ++ w)).isSome = true := by
  cases kw with
  | nil => exact absurd rfl hkw
  | cons k ks =>
    have h1 : beginsWith (k :: ks) (k :: (ks ++ w)) = true := by
      have hb := beginsWith_self_append (k :: ks) w
      rw [List.cons_append] at hb
      exact hb
    have h2 : (k :: (ks ++ w)).drop (k :: ks).length = w := by
      simp only [List.length_cons, List.drop_succ_cons]
      exact List.drop_left ks w
    rw [List.cons_append]
    simp only [findCmdWord]
    rw [if_pos ⟨h1, h2.symm ▸ hw, h2.symm ▸ hall⟩]
    rfl

/-- Completeness of the end-anchored keyword matcher: any decomposition into
prefix, keyword and non-empty word gives a match. -/
theorem findCmdWord_complete (kw : List Char) (hkw : kw ≠ []) (w : List Char)
    (hw : w ≠ []) (hall : w.all isWordChar = true) :
    ∀ p, (findCmdWord kw (p ++ kw ++ w)).isSome = true := by
  intro p
  induction p with
  | nil =>
    simp only [List.nil_append]
    exact findCmdWord_exact kw hkw w hw hall
  | cons a p ih =>
    have hshape : (a :: p) ++ kw ++ w = a :: (p ++ kw ++ w) := by simp
    rw [hshape]
    exact findCmdWord_step kw a (p ++ kw ++ w) ih

/-- The word characters taken by `takeWhile` all satisfy the class test. -/
theorem takeWhile_self_all (p : Char → Bool) : ∀ l : List Char, (l.takeWhile p).all p = true := by
  intro l
  induction l with
  | nil => rfl
  | cons x xs ih =>
    cases hx : p x with
    | true => simp [List.takeWhile_cons, hx, ih]
    | false => simp [List.takeWhile_cons, hx]

/-- A list of class characters followed by a stopping character splits
`takeWhile`/`dropWhile` exactly at the stopping character. -/
theorem takeWhile_append_stop (p : Char → Bool) (y : Char) (hy : p y = false) :
    ∀ xs ys : List Char, xs.all p = true →
      (xs ++ y :: ys).takeWhile p = xs ∧ (xs ++ y :: ys).dropWhile p = y :: ys := by
  intro xs
  induction xs with
  | nil =>
    intro ys _
    constructor
    · simp [List.takeWhile_cons, hy]
    · simp [List.dropWhile_cons, hy]
  | cons x xs ih =>
    intro ys hall
    simp only [List.all_cons, Bool.and_eq_true] at hall
    obtain ⟨hx, hrest⟩ := hall
    obtain ⟨h1, h2⟩ := ih ys hrest
    constructor
    · simp [List.takeWhile_cons, hx, h1]
    · simp [List.dropWhile_cons, hx, h2]

/-- When the first non-word character of the scanned tail is a space, the
tail splits as word run, space, remainder. -/
theorem msg_decomp (t : List Char) (hh : (t.dropWhile isWordChar).head? = some ' ') :
    t = t.takeWhile isWordChar ++ ' ' :: (t.dropWhile isWordChar).tail := by
  cases hu : t.dropWhile isWordChar with
  | nil => rw [hu] at hh; cases hh
  | cons u us =>
    rw [hu] at hh
    simp only [List.head?_cons, Option.some.injEq] at hh
    conv_lhs => rw [← List.takeWhile_append_dropWhile isWordChar t]
    rw [hu, hh]
    simp

/-- Soundness of the end-anchored msg matcher: a successful match decomposes
the body as prefix, keyword, word, space and non-empty newline-free rest. -/
theorem findMsgParts_sound :
    ∀ cs w r, findMsgParts cs = some (w, r) →
      (∃ p, cs = p ++ msgKw ++ w ++ ' ' :: r) ∧ w ≠ [] ∧ w.all isWordChar = true
        ∧ r ≠ [] ∧ '\n' ∉ r := by
  intro cs
  induction cs with
  | nil => intro w r h; cases h
  | cons c rest ih =>
    intro w r h
    by_cases hcond : beginsWith msgKw (c :: rest) = true ∧
        ((c :: rest).drop msgKw.length).takeWhile isWordChar ≠ [] ∧
        (((c :: rest).drop msgKw.length).dropWhile isWordChar).head? = some ' ' ∧
        (((c :: rest).drop msgKw.length).dropWhile isWordChar).tail ≠ [] ∧
        '\n' ∉ (((c :: rest).drop msgKw.length).dropWhile isWordChar).tail
    · simp only [findMsgParts, if_pos hcond] at h
      obtain ⟨hcb, hcw, hch, hct, hcn⟩ := hcond
      simp only [Option.some.injEq, Prod.mk.injEq] at h
      obtain ⟨hw, hr⟩ := h
      subst hw
      subst hr
      refine ⟨⟨[], ?_⟩, hcw, takeWhile_self_all isWordChar _, hct, hcn⟩
      have hsplit := beginsWith_eq msgKw (c :: rest) hcb
      have hdec := msg_decomp ((c :: rest).drop msgKw.length) hch
      rw [List.nil_append]
      calc c :: rest = msgKw ++ (c :: rest).drop msgKw.length := hsplit
        _ = msgKw ++ (((c :: rest).drop msgKw.length).takeWhile isWordChar
            ++ ' ' :: (((c :: rest).drop msgKw.length).dropWhile isWordChar).tail) := by
              rw [← hdec]
        _ = msgKw ++ ((c :: rest).drop msgKw.length).takeWhile isWordChar
            ++ ' ' :: (((c :: rest).drop msgKw.length).dropWhile isWordChar).tail := by
              rw [List.append_assoc]
    · simp only [findMsgParts, if_neg hcond] at h
      obtain ⟨⟨p, hp⟩, h2, h3, h4, h5⟩ := ih w r h
      exact ⟨⟨c :: p, by simp [hp, List.append_assoc]⟩, h2, h3, h4, h5⟩

/-- A msg match that exists in the tail also exists with one more leading
character. -/
theorem findMsgParts_step (c : Char) (cs : List Char)
    (h : (findMsgParts cs).isSome = true) :
    (findMsgParts (c :: cs)).isSome = true := by
  by_cases hcond : beginsWith msgKw (c :: cs) = true ∧
      ((c :: cs).drop msgKw.length).takeWhile isWordChar ≠ [] ∧
      (((c :: cs).drop msgKw.length).dropWhile isWordChar).head? = some ' ' ∧
      (((c :: cs).drop msgKw.length).dropWhile isWordChar).tail ≠ [] ∧
      '\n' ∉ (((c :: cs).drop msgKw.length).dropWhile isWordChar).tail
  · simp only [findMsgParts]
    rw [if_pos hcond]
    rfl
  · simp only [findMsgParts]
    rw [if_neg hcond]
    exact h

/-- The msg matcher succeeds on a body that is exactly the keyword, a
non-empty word, a space and a non-empty newline-free rest. -/
theorem findMsgParts_exact (w r : List Char) (hw : w ≠ []) (hall : w.all isWordChar = true)
    (hr : r ≠ []) (hn : '\n' ∉ r) :
    (findMsgParts (msgKw ++ w ++ ' ' :: r)).isSome = true := by
  obtain ⟨htw, hdw⟩ := takeWhile_append_stop isWordChar ' ' (by decide) w r hall
  have hshape : msgKw ++ w ++ ' ' :: r
      = 'm' :: ((['s', 'g', ' '] : List Char) ++ w ++ ' ' :: r) := by
    simp [msgKw]
  have hdrop : ('m' :: ((['s', 'g', ' '] : List Char) ++ w ++ ' ' :: r)).drop msgKw.length
      = w ++ ' ' :: r := by
    simp [msgKw]
  rw [hshape]
  simp only [findMsgParts]
  rw [if_pos ?hc]
  case hc =>
    refine ⟨?_, ?_, ?_, ?_, ?_⟩
    · rw [← hshape]
      have hb := beginsWith_self_append msgKw (w ++ ' ' :: r)
      rw [← List.append_assoc] at hb
      exact hb
    · rw [hdrop, htw]
      exact hw
    · rw [hdrop, hdw]
      rfl
    · rw [hdrop, hdw]
      simpa using hr
    · rw [hdrop, hdw]
      simpa using hn
  rfl

/-- Completeness of the end-anchored msg matcher. -/
theorem findMsgParts_complete (w r : List Char) (hw : w ≠ []) (hall : w.all isWordChar = true)
    (hr : r ≠ []) (hn : '\n' ∉ r) :
    ∀ p, (findMsgParts (p ++ msgKw ++ w ++ ' ' :: r)).isSome = true := by
  intro p
  induction p with
  | nil =>
    simp only [List.nil_append]
    exact findMsgParts_exact w r hw hall hr hn
  | cons a p ih =>
    have hshape : (a :: p) ++ msgKw ++ w ++ ' ' :: r = a :: (p ++ msgKw ++ w ++ ' ' :: r) := by
      simp
    rw [hshape]
    exact findMsgParts_step a (p ++ msgKw ++ w ++ ' ' :: r) ih

/-- Claim C5 fails on the code: the three regexes carry no start anchor, so
the line `xnick foo\n` — which is none of the exact shapes `nick <word>\n`,
`join <word>\n`, `msg <word> <rest>\n` — is nevertheless classified as a nick
command (the end-anchored `nick (\w+)\n$` matches from position 1). -/
theorem parse_not_exact_shape :
    parseCommand 0 "xnick foo\n" = some (Command.nick 0 "foo")
    ∧ specExactShape "xnick foo\n" = false :=
  ⟨rfl, rfl⟩

/-- Claim C5 (amended): a raw line is classified as a command if and only if
it ends, after an arbitrary prefix, in one of the three end-anchored shapes
`nick <word>\n`, `join <word>\n`, `msg <word> <rest>\n` (word non-empty word
characters, rest non-empty and newline-free), tried in that order; every
other line is answered, bypassing the dispatcher, with exactly
`Error: Invalid cmd: <original line>` and nothing is enqueued. -/
theorem parse_iff_end_anchored (c : Nat) (s : String) :
    ((parseCommand c s).isSome = true ↔
      suffixNickShape s ∨ suffixJoinShape s ∨ suffixMsgShape s)
    ∧ (parseCommand c s = none →
        handleLine c s = (none, [(c, "Error: Invalid cmd: " ++ s)])) := by
  constructor
  · constructor
    · intro h
      cases hsp : splitFinalNewline s.data with
      | none => simp [parseCommand, hsp] at h
      | some body =>
        have hbody : s.data = body ++ ['\n'] := splitFinalNewline_sound s.data body hsp
        cases hn : findCmdWord nickKw body with
        | some w =>
          obtain ⟨p, hp⟩ := findCmdWord_sound nickKw body w hn
          obtain ⟨hw1, hw2⟩ := findCmdWord_word nickKw body w hn
          exact Or.inl ⟨p, w, by rw [hbody, hp], hw1, hw2⟩
        | none =>
          cases hj : findCmdWord joinKw body with
          | some w =>
            obtain ⟨p, hp⟩ := findCmdWord_sound joinKw body w hj
            obtain ⟨hw1, hw2⟩ := findCmdWord_word joinKw body w hj
            exact Or.inr (Or.inl ⟨p, w, by rw [hbody, hp], hw1, hw2⟩)
          | none =>
            cases hm : findMsgParts body with
            | some pr =>
              obtain ⟨w, r⟩ := pr
              obtain ⟨⟨p, hp⟩, hw1, hw2, hr1, hr2⟩ := findMsgParts_sound body w r hm
              exact Or.inr (Or.inr ⟨p, w, r, by rw [hbody, hp], hw1, hw2, hr1, hr2⟩)
            | none => simp [parseCommand, hsp, hn, hj, hm] at h
    · intro h
      rcases h with ⟨p, w, heq, hw, hall⟩ | ⟨p, w, heq, hw, hall⟩ |
        ⟨p, w, r, heq, hw, hall, hr, hnr⟩
      · have hsp : splitFinalNewline s.data = some (p ++ nickKw ++ w) := by
          rw [heq]
          exact splitFinalNewline_append (p ++ nickKw ++ w)
        have hfind := findCmdWord_complete nickKw (by decide) w hw hall p
        cases hn : findCmdWord nickKw (p ++ nickKw ++ w) with
        | none => rw [hn] at hfind; cases hfind
        | some w2 => simp only [parseCommand, hsp, hn, Option.isSome_some]
      · have hsp : splitFinalNewline s.data = some (p ++ joinKw ++ w) := by
          rw [heq]
          exact splitFinalNewline_append (p ++ joinKw ++ w)
        have hfind := findCmdWord_complete joinKw (by decide) w hw hall p
        cases hn : findCmdWord nickKw (p ++ joinKw ++ w) with
        | some w2 => simp only [parseCommand, hsp, hn, Option.isSome_some]
        | none =>
          cases hj : findCmdWord joinKw (p ++ joinKw ++ w) with
          | none => rw [hj] at hfind; cases hfind
          | some w2 => simp only [parseCommand, hsp, hn, hj, Option.isSome_some]
      · have hsp : splitFinalNewline s.data = some (p ++ msgKw ++ w ++ ' ' :: r) := by
          rw [heq]
          exact splitFinalNewline_append (p ++ msgKw ++ w ++ ' ' :: r)
        have hfind := findMsgParts_complete w r hw hall hr hnr p
        cases hn : findCmdWord nickKw (p ++ msgKw ++ w ++ ' ' :: r) with
        | some w2 => simp only [parseCommand, hsp, hn, Option.isSome_some]
        | none =>
          cases hj : findCmdWord joinKw (p ++ msgKw ++ w ++ ' ' :: r) with
          | some w2 => simp only [parseCommand, hsp, hn, hj, Option.isSome_some]
          | none =>
            cases hm : findMsgParts (p ++ msgKw ++ w ++ ' ' :: r) with
            | none => rw [hm] at hfind; cases hfind
            | some pr =>
              obtain ⟨w2, r2⟩ := pr
              simp only [parseCommand, hsp, hn, hj, hm, Option.isSome_some]
  · intro h
    simp [handleLine, h]

/-- Witness for the amended claim C5 at a concrete input: the line `hello`
(no trailing newline, no end-anchored shape) is answered with exactly the
invalid-command error and nothing is enqueued. -/
theorem parse_iff_end_anchored_witness :
    handleLine 7 "hello" = (none, [(7, "Error: Invalid cmd: hello")]) :=
  (parse_iff_end_anchored 7 "hello").2 rfl
